import Mathlib

set_option maxHeartbeats 1000000

namespace Palace

/-!
Shallow embedding of the streaming LLM client and agent loop of
obsidian-palace (src/src/shared/llmClient.ts, the AgentRunner and
ToolRegistry modules, src/src/shared/types.ts).

Bytes of the response body are modelled as `Char`s: the source pipes every
byte chunk through a single `TextDecoder` in streaming mode, so the byte
level factors through the character level, and all framing in the source
is on the character `'\n'`.  `JSON.parse` is a platform primitive, not
repository code; it is modelled as a parameter `p : String → Option
StreamEvent` returning the shape the decoder reads from each frame.
-/

/-! ### Data model (src/src/shared/types.ts) -/

structure ToolCallFunction where
  name : String
  arguments : String
  deriving Repr, DecidableEq

structure ToolCall where
  id : String
  type : String
  function : ToolCallFunction
  deriving Repr, DecidableEq

structure LLMResponse where
  content : Option String
  tool_calls : Option (List ToolCall)
  finish_reason : String
  deriving Repr, DecidableEq

structure LLMMessage where
  role : String
  content : String
  tool_call_id : Option String
  tool_calls : Option (List ToolCall)
  deriving Repr, DecidableEq

/-! ### Parsed stream events

The shape `LLMClient.stream` reads out of each `data:` frame:
`json.choices?.[0]`, `choice.finish_reason`, `choice.delta`,
`delta.content`, `delta.tool_calls` with entries
`\x7bindex, id?, function?: \x7bname?, arguments?\x7d\x7d`.
A missing string field and an empty one are both falsy in the source, so
both are modelled as `""`. -/

structure ToolCallDelta where
  index : Nat
  id : String
  name : String
  arguments : String
  deriving Repr, DecidableEq

structure StreamDelta where
  content : String
  tool_calls : Option (List ToolCallDelta)
  deriving Repr, DecidableEq

structure StreamChoice where
  finish_reason : String
  delta : Option StreamDelta
  deriving Repr, DecidableEq

structure StreamEvent where
  choices : List StreamChoice
  deriving Repr, DecidableEq

/-- One entry of `toolCallAccumulator` (llmClient.ts line 118). -/
structure ToolCallFragment where
  id : String
  name : String
  arguments : String
  deriving Repr, DecidableEq

/-- The per-frame decoder state: `fullContent`, the insertion-ordered map
`toolCallAccumulator` (a JS `Map`, modelled as an association list in
insertion order), and `finishReason`. -/
structure FrameState where
  fullContent : String
  toolCallAccumulator : List (Nat × ToolCallFragment)
  finishReason : String
  deriving Repr, DecidableEq

/-- Full decoder state: the re-buffered partial line plus the frame state. -/
structure DecodeState where
  buffer : List Char
  frame : FrameState
  deriving Repr, DecidableEq

/-! ### Stream decoder (llmClient.ts lines 115-194) -/

/-- Lines 165-167: overwrite `id` and `name` only when the delta carries a
truthy value, always append a truthy `arguments` piece. -/
def applyFragmentUpdate (f : ToolCallFragment) (tc : ToolCallDelta) : ToolCallFragment :=
  { id := if tc.id ≠ "" then tc.id else f.id
    name := if tc.name ≠ "" then tc.name else f.name
    arguments := if tc.arguments ≠ "" then f.arguments ++ tc.arguments else f.arguments }

/-- Model of `Map.get` on the insertion-ordered association list. -/
def lookupFrag (i : Nat) : List (Nat × ToolCallFragment) → Option ToolCallFragment
  | [] => none
  | e :: t => if e.1 = i then some e.2 else lookupFrag i t

/-- Lines 156-167: create the fragment at `tc.index` when absent
(`id: tc.id || ''`, `name: tc.function?.name || ''`, `arguments: ''`),
then apply the update to the stored fragment. -/
def accumulateToolCall (acc : List (Nat × ToolCallFragment)) (tc : ToolCallDelta) :
    List (Nat × ToolCallFragment) :=
  if (lookupFrag tc.index acc).isSome then
    acc.map (fun e => if e.1 = tc.index then (e.1, applyFragmentUpdate e.2 tc) else e)
  else
    acc ++ [(tc.index, applyFragmentUpdate ⟨tc.id, tc.name, ""⟩ tc)]

/-- Lines 137-170: interpretation of one parsed frame. -/
def processEvent (st : FrameState) (ev : StreamEvent) : FrameState :=
  match ev.choices.head? with
  | none => st
  | some choice =>
    let st1 := if choice.finish_reason ≠ "" then
      { st with finishReason := choice.finish_reason } else st
    match choice.delta with
    | none => st1
    | some delta =>
      let st2 := if delta.content ≠ "" then
        { st1 with fullContent := st1.fullContent ++ delta.content } else st1
      match delta.tool_calls with
      | none => st2
      | some tcs =>
        { st2 with toolCallAccumulator := tcs.foldl accumulateToolCall st2.toolCallAccumulator }

/-- Model of `trimmed.startsWith('data:')`. -/
def isDataLine : List Char → Bool
  | 'd' :: 'a' :: 't' :: 'a' :: ':' :: _ => true
  | _ => false

/-- Model of `String.prototype.trim` on the whitespace characters relevant here. -/
def trimChars (l : List Char) : List Char :=
  ((l.dropWhile Char.isWhitespace).reverse.dropWhile Char.isWhitespace).reverse

/-- Lines 129-173: one complete line.  Empty or non-`data:` lines are
skipped, the `[DONE]` sentinel is skipped without a parse, a frame whose
payload does not parse is skipped, otherwise the parsed event is applied. -/
def processLine (p : String → Option StreamEvent) (st : FrameState) (line : List Char) :
    FrameState :=
  let trimmed := trimChars line
  if trimmed.isEmpty || !(isDataLine trimmed) then st
  else
    let data := trimChars (trimmed.drop 5)
    if data = "[DONE]".data then st
    else
      match p (String.mk data) with
      | none => st
      | some ev => processEvent st ev

/-- Model of `buffer.split('\n')` followed by `buffer = lines.pop()`: the pair of
complete lines and the trailing partial line. -/
def splitLines : List Char → List (List Char) × List Char
  | [] => ([], [])
  | c :: rest =>
    let r := splitLines rest
    if c = '\n' then ([] :: r.1, r.2)
    else
      match r.1 with
      | [] => ([], c :: r.2)
      | l :: ls => ((c :: l) :: ls, r.2)

/-- Lines 125-174: feed one chunk: append to the buffer, split off the
complete lines, process each, re-buffer the trailing partial line. -/
def feed (p : String → Option StreamEvent) (st : DecodeState) (chunk : List Char) :
    DecodeState :=
  let r := splitLines (st.buffer ++ chunk)
  { buffer := r.2, frame := r.1.foldl (processLine p) st.frame }

def initState : DecodeState :=
  { buffer := [], frame := { fullContent := "", toolCallAccumulator := [], finishReason := "" } }

/-- The whole read loop over a sequence of chunks. -/
def decodeChunks (p : String → Option StreamEvent) (chunks : List (List Char)) : DecodeState :=
  chunks.foldl (feed p) initState

/-- Lines 177-188: materialize the accumulator (in JS `Map` iteration
order, i.e. insertion order) into the final `tool_calls` list. -/
def finalizeToolCalls (acc : List (Nat × ToolCallFragment)) : Option (List ToolCall) :=
  if acc.length > 0 then
    some (acc.map (fun e =>
      { id := e.2.id, type := "function"
        function := { name := e.2.name, arguments := e.2.arguments } }))
  else none

/-- Lines 190-194: the returned `LLMResponse`. -/
def finalizeResult (st : FrameState) : LLMResponse :=
  { content := if st.fullContent ≠ "" then some st.fullContent else none
    tool_calls := finalizeToolCalls st.toolCallAccumulator
    finish_reason := if st.finishReason ≠ "" then st.finishReason else "stop" }

/-- End-to-end decoder: chunks in, `LLMResponse` out. -/
def streamResult (p : String → Option StreamEvent) (chunks : List (List Char)) : LLMResponse :=
  finalizeResult (decodeChunks p chunks).frame

/-! ### Chunk-split invariance machinery -/

/-- Character-level restatement of `feed`: buffer characters one at a
time, firing `processLine` at each newline. -/
def charStep (p : String → Option StreamEvent) (st : DecodeState) (c : Char) : DecodeState :=
  if c = '\n' then { buffer := [], frame := processLine p st.frame st.buffer }
  else { st with buffer := st.buffer ++ [c] }

theorem splitLines_no_newline {l : List Char} (h : '\n' ∉ l) : splitLines l = ([], l) := by
  induction l with
  | nil => rfl
  | cons c rest ih =>
    simp only [List.mem_cons, not_or] at h
    simp [splitLines, ih h.2, Ne.symm h.1]

theorem splitLines_snd_no_newline (l : List Char) : '\n' ∉ (splitLines l).2 := by
  induction l with
  | nil => simp [splitLines]
  | cons c rest ih =>
    simp only [splitLines]
    by_cases hc : c = '\n'
    · simpa [hc] using ih
    · cases h : (splitLines rest).1 with
      | nil =>
        simp only [hc, if_false, h]
        intro hmem
        rcases List.mem_cons.mp hmem with h1 | h2
        · exact hc h1.symm
        · exact ih h2
      | cons l0 ls => simpa [hc, h] using ih

theorem splitLines_append_newline (xs ys : List Char) (h : '\n' ∉ xs) :
    splitLines (xs ++ '\n' :: ys) = (xs :: (splitLines ys).1, (splitLines ys).2) := by
  induction xs with
  | nil => simp [splitLines]
  | cons c rest ih =>
    simp only [List.mem_cons, not_or] at h
    simp [splitLines, ih h.2, Ne.symm h.1]

theorem feed_eq_foldl_charStep (p : String → Option StreamEvent) (chunk : List Char)
    (st : DecodeState) (h : '\n' ∉ st.buffer) :
    feed p st chunk = chunk.foldl (charStep p) st := by
  induction chunk generalizing st with
  | nil =>
    simp [feed, splitLines_no_newline h]
  | cons c cs ih =>
    by_cases hc : c = '\n'
    · subst hc
      have hsplit := splitLines_append_newline st.buffer cs h
      have hfeed : feed p st ('\n' :: cs) =
          feed p { buffer := [], frame := processLine p st.frame st.buffer } cs := by
        simp [feed, hsplit]
      rw [hfeed, ih _ (by simp)]
      simp [charStep]
    · have hbuf : '\n' ∉ st.buffer ++ [c] := by
        intro hmem
        rcases List.mem_append.mp hmem with h1 | h2
        · exact h h1
        · exact hc (List.mem_singleton.mp h2).symm
      have hfeed : feed p st (c :: cs) = feed p { st with buffer := st.buffer ++ [c] } cs := by
        simp [feed]
      rw [hfeed, ih _ hbuf]
      simp [charStep, hc]

theorem feed_append (p : String → Option StreamEvent) (st : DecodeState) (a b : List Char)
    (h : '\n' ∉ st.buffer) :
    feed p (feed p st a) b = feed p st (a ++ b) := by
  have ha : '\n' ∉ (feed p st a).buffer := by
    simpa [feed] using splitLines_snd_no_newline (st.buffer ++ a)
  rw [feed_eq_foldl_charStep p a st h, feed_eq_foldl_charStep p (a ++ b) st h,
    List.foldl_append]
  rw [← feed_eq_foldl_charStep p a st h] at *
  rw [feed_eq_foldl_charStep p b _ ha]

theorem feed_nil (p : String → Option StreamEvent) (st : DecodeState)
    (h : '\n' ∉ st.buffer) : feed p st [] = st := by
  simp [feed, splitLines_no_newline h]

theorem foldl_feed_join (p : String → Option StreamEvent) (chunks : List (List Char))
    (st : DecodeState) (h : '\n' ∉ st.buffer) :
    chunks.foldl (feed p) st = feed p st chunks.flatten := by
  induction chunks generalizing st with
  | nil => simp [feed_nil p st h]
  | cons c cs ih =>
    have hc : '\n' ∉ (feed p st c).buffer := by
      simpa [feed] using splitLines_snd_no_newline (st.buffer ++ c)
    simp only [List.foldl_cons, List.flatten_cons]
    rw [ih _ hc, feed_append p st c cs.flatten h]

/-- C2: For every sequence of chunks, running the stream decoder yields
exactly the `LLMResponse` obtained from the unsplit body (the
concatenation of the chunks): the final CompletionResult — content, tool
calls, finish reason — is independent of where the byte stream was split,
including splits mid-line and mid-payload. -/
theorem streamResult_chunk_split_invariant (p : String → Option StreamEvent)
    (chunks : List (List Char)) :
    streamResult p chunks = streamResult p [chunks.flatten] := by
  have h0 : '\n' ∉ initState.buffer := by simp [initState]
  unfold streamResult decodeChunks
  rw [foldl_feed_join p chunks initState h0]
  simp

theorem decodeChunks_buffer_no_newline (p : String → Option StreamEvent)
    (chunks : List (List Char)) : '\n' ∉ (decodeChunks p chunks).buffer := by
  induction chunks using List.reverseRecOn with
  | nil => simp [decodeChunks, initState]
  | append_singleton cs c _ =>
    unfold decodeChunks
    rw [List.foldl_append]
    simpa [feed] using splitLines_snd_no_newline ((decodeChunks p cs).buffer ++ c)

/-- C10: A trailing chunk that contains no newline (in particular a
trailing `data:` event not terminated by a newline) is only re-buffered:
the frame state is untouched, the bytes stay in the buffer, and the
returned CompletionResult is identical to the one without that trailing
partial line. -/
theorem trailing_unterminated_line_ignored (p : String → Option StreamEvent)
    (chunks : List (List Char)) (tail : List Char) (h : '\n' ∉ tail) :
    (decodeChunks p (chunks ++ [tail])).frame = (decodeChunks p chunks).frame ∧
    (decodeChunks p (chunks ++ [tail])).buffer = (decodeChunks p chunks).buffer ++ tail ∧
    streamResult p (chunks ++ [tail]) = streamResult p chunks := by
  have hb : '\n' ∉ (decodeChunks p chunks).buffer ++ tail := by
    intro hmem
    rcases List.mem_append.mp hmem with h1 | h2
    · exact decodeChunks_buffer_no_newline p chunks h1
    · exact h h2
  have hdec : decodeChunks p (chunks ++ [tail]) = feed p (decodeChunks p chunks) tail := by
    unfold decodeChunks
    rw [List.foldl_append]
    rfl
  have hfeed : feed p (decodeChunks p chunks) tail =
      { buffer := (decodeChunks p chunks).buffer ++ tail,
        frame := (decodeChunks p chunks).frame } := by
    simp [feed, splitLines_no_newline hb]
  refine ⟨?_, ?_, ?_⟩
  · rw [hdec, hfeed]
  · rw [hdec, hfeed]
  · unfold streamResult
    rw [hdec, hfeed]

/-! ### Tool-call accumulator characterization -/

/-- The sub-sequence of deltas delivered at index `i`, in delivery order. -/
def deltasAt (tcs : List ToolCallDelta) (i : Nat) : List ToolCallDelta :=
  tcs.filter (fun tc => tc.index == i)

/-- Concatenation of a list of strings in order. -/
def concatAll : List String → String
  | [] => ""
  | s :: rest => s ++ concatAll rest

/-- The last non-empty value in a list of strings, or `""`: the value
left in a field that is overwritten only by non-empty updates. -/
def lastTruthy (l : List String) : String :=
  l.foldl (fun s v => if v ≠ "" then v else s) ""

/-- One delta's effect on the (optional) fragment stored at its index. -/
def optStep (of : Option ToolCallFragment) (tc : ToolCallDelta) : Option ToolCallFragment :=
  some (applyFragmentUpdate (of.getD ⟨tc.id, tc.name, ""⟩) tc)

def insertNew (seen : List Nat) (i : Nat) : List Nat :=
  if i ∈ seen then seen else seen ++ [i]

def firstSeenKeys (keys : List Nat) (tcs : List ToolCallDelta) : List Nat :=
  tcs.foldl (fun s tc => insertNew s tc.index) keys

/-- The distinct indices of a delta sequence, in first-seen order. -/
def firstSeenIndices (tcs : List ToolCallDelta) : List Nat :=
  firstSeenKeys [] tcs

theorem lookupFrag_map_update (acc : List (Nat × ToolCallFragment)) (j i : Nat)
    (g : ToolCallFragment → ToolCallFragment) :
    lookupFrag i (acc.map (fun e => if e.1 = j then (e.1, g e.2) else e)) =
      if i = j then (lookupFrag i acc).map g else lookupFrag i acc := by
  induction acc with
  | nil => by_cases h : i = j <;> simp [lookupFrag, h]
  | cons e t ih =>
    obtain ⟨k, v⟩ := e
    by_cases hki : k = i
    · subst hki
      by_cases hkj : k = j <;> simp [lookupFrag, hkj, ih]
    · by_cases hkj : k = j
      · subst hkj
        have hij : ¬i = k := fun h => hki h.symm
        simp [lookupFrag, hki, hij, ih]
      · simp [lookupFrag, hkj, hki, ih]

theorem lookupFrag_append_single (acc : List (Nat × ToolCallFragment)) (j i : Nat)
    (v : ToolCallFragment) :
    lookupFrag i (acc ++ [(j, v)]) =
      if (lookupFrag i acc).isSome then lookupFrag i acc
      else if i = j then some v else none := by
  induction acc with
  | nil =>
    by_cases h : i = j
    · simp [lookupFrag, h]
    · have hji : ¬j = i := fun hh => h hh.symm
      simp [lookupFrag, h, hji]
  | cons e t ih =>
    obtain ⟨k, w⟩ := e
    by_cases hki : k = i <;> simp [lookupFrag, hki, ih]

theorem lookupFrag_accumulate (acc : List (Nat × ToolCallFragment)) (tc : ToolCallDelta)
    (i : Nat) :
    lookupFrag i (accumulateToolCall acc tc) =
      if i = tc.index then optStep (lookupFrag i acc) tc else lookupFrag i acc := by
  unfold accumulateToolCall
  by_cases hs : (lookupFrag tc.index acc).isSome
  · rw [if_pos hs, lookupFrag_map_update acc tc.index i (fun f => applyFragmentUpdate f tc)]
    by_cases hit : i = tc.index
    · subst hit
      obtain ⟨f, hf⟩ := Option.isSome_iff_exists.mp hs
      simp [hf, optStep]
    · simp [hit]
  · rw [if_neg hs, lookupFrag_append_single acc tc.index i]
    by_cases hit : i = tc.index
    · have hn : lookupFrag tc.index acc = none := Option.not_isSome_iff_eq_none.mp hs
      simp [hn, hit, optStep]
    · cases h : lookupFrag i acc <;> simp [h, hit]

theorem lookupFrag_isSome_iff_mem (i : Nat) (acc : List (Nat × ToolCallFragment)) :
    (lookupFrag i acc).isSome ↔ i ∈ acc.map Prod.fst := by
  induction acc with
  | nil => simp [lookupFrag]
  | cons e t ih =>
    obtain ⟨k, v⟩ := e
    by_cases hki : k = i
    · simp [lookupFrag, hki]
    · have hik : ¬i = k := fun h => hki h.symm
      simp [lookupFrag, hki, hik, ih]

theorem keys_accumulate (acc : List (Nat × ToolCallFragment)) (tc : ToolCallDelta) :
    (accumulateToolCall acc tc).map Prod.fst = insertNew (acc.map Prod.fst) tc.index := by
  unfold accumulateToolCall insertNew
  by_cases hs : (lookupFrag tc.index acc).isSome
  · have hmem : tc.index ∈ acc.map Prod.fst := (lookupFrag_isSome_iff_mem _ _).mp hs
    rw [if_pos hs, if_pos hmem, List.map_map]
    apply List.map_congr_left
    intro e _
    by_cases h : e.1 = tc.index <;> simp [h]
  · have hmem : tc.index ∉ acc.map Prod.fst := fun hm =>
      hs ((lookupFrag_isSome_iff_mem _ _).mpr hm)
    rw [if_neg hs, if_neg hmem]
    simp

theorem lookupFrag_foldl_accumulate (tcs : List ToolCallDelta)
    (acc : List (Nat × ToolCallFragment)) (i : Nat) :
    lookupFrag i (tcs.foldl accumulateToolCall acc) =
      (deltasAt tcs i).foldl optStep (lookupFrag i acc) := by
  induction tcs generalizing acc with
  | nil => simp [deltasAt]
  | cons tc rest ih =>
    have hfilter : deltasAt (tc :: rest) i =
        if tc.index = i then tc :: deltasAt rest i else deltasAt rest i := by
      by_cases hit : tc.index = i <;> simp [deltasAt, List.filter_cons, hit]
    rw [List.foldl_cons, ih, lookupFrag_accumulate, hfilter]
    by_cases hit : tc.index = i
    · simp [hit, List.foldl_cons]
    · have hti : ¬i = tc.index := fun h => hit h.symm
      simp [hit, hti]

theorem keys_foldl_accumulate (tcs : List ToolCallDelta)
    (acc : List (Nat × ToolCallFragment)) :
    (tcs.foldl accumulateToolCall acc).map Prod.fst =
      firstSeenKeys (acc.map Prod.fst) tcs := by
  induction tcs generalizing acc with
  | nil => simp [firstSeenKeys]
  | cons tc rest ih =>
    have hfsk : firstSeenKeys (acc.map Prod.fst) (tc :: rest) =
        firstSeenKeys (insertNew (acc.map Prod.fst) tc.index) rest := rfl
    rw [List.foldl_cons, ih, keys_accumulate, hfsk]

theorem nodup_insertNew {seen : List Nat} (h : seen.Nodup) (i : Nat) :
    (insertNew seen i).Nodup := by
  unfold insertNew
  by_cases hm : i ∈ seen
  · simpa [hm] using h
  · simp [hm, List.nodup_append, h]

theorem nodup_firstSeenKeys (tcs : List ToolCallDelta) (seen : List Nat) (h : seen.Nodup) :
    (firstSeenKeys seen tcs).Nodup := by
  induction tcs generalizing seen with
  | nil => exact h
  | cons tc rest ih => exact ih _ (nodup_insertNew h tc.index)

theorem assoc_eq_map_keys (acc : List (Nat × ToolCallFragment))
    (h : (acc.map Prod.fst).Nodup) (d : ToolCallFragment) :
    acc = (acc.map Prod.fst).map (fun i => (i, (lookupFrag i acc).getD d)) := by
  induction acc with
  | nil => rfl
  | cons e t ih =>
    obtain ⟨k, v⟩ := e
    simp only [List.map_cons] at h ⊢
    obtain ⟨hk, ht⟩ := List.nodup_cons.mp h
    have htail : (t.map Prod.fst).map (fun i => (i, (lookupFrag i ((k, v) :: t)).getD d)) =
        (t.map Prod.fst).map (fun i => (i, (lookupFrag i t).getD d)) := by
      apply List.map_congr_left
      intro i hi
      have hik : k ≠ i := by
        rintro rfl
        exact hk hi
      simp [lookupFrag, hik]
    rw [htail, ← ih ht]
    simp [lookupFrag]

/-- Spec-side reassembly of the fragment accumulated at index `i`. -/
def reassembleAt (tcs : List ToolCallDelta) (i : Nat) : ToolCallFragment :=
  ((deltasAt tcs i).foldl optStep none).getD ⟨"", "", ""⟩

theorem foldl_accumulate_eq (tcs : List ToolCallDelta) :
    tcs.foldl accumulateToolCall [] =
      (firstSeenIndices tcs).map (fun i => (i, reassembleAt tcs i)) := by
  have hkeys : (tcs.foldl accumulateToolCall []).map Prod.fst = firstSeenIndices tcs := by
    simpa [firstSeenIndices] using keys_foldl_accumulate tcs []
  have hnd : ((tcs.foldl accumulateToolCall []).map Prod.fst).Nodup := by
    rw [hkeys]
    exact nodup_firstSeenKeys tcs [] List.nodup_nil
  calc tcs.foldl accumulateToolCall []
      = ((tcs.foldl accumulateToolCall []).map Prod.fst).map
          (fun i => (i, (lookupFrag i (tcs.foldl accumulateToolCall [])).getD ⟨"", "", ""⟩)) :=
        assoc_eq_map_keys _ hnd _
    _ = (firstSeenIndices tcs).map (fun i => (i, reassembleAt tcs i)) := by
        rw [hkeys]
        apply List.map_congr_left
        intro i _
        rw [lookupFrag_foldl_accumulate]
        rfl

theorem optStep_foldl_some (l : List ToolCallDelta) (f : ToolCallFragment) :
    l.foldl optStep (some f) = some (l.foldl applyFragmentUpdate f) := by
  induction l generalizing f with
  | nil => rfl
  | cons tc rest ih => simp [optStep, ih]

theorem foldl_apply_arguments (l : List ToolCallDelta) (f : ToolCallFragment) :
    (l.foldl applyFragmentUpdate f).arguments =
      f.arguments ++ concatAll (l.map (fun tc => tc.arguments)) := by
  induction l generalizing f with
  | nil => simp [concatAll, String.append_empty]
  | cons tc rest ih =>
    simp only [List.foldl_cons, List.map_cons, concatAll]
    rw [ih]
    by_cases h : tc.arguments = ""
    · simp [applyFragmentUpdate, h, String.empty_append]
    · simp [applyFragmentUpdate, h, String.append_assoc]

theorem foldl_apply_id (l : List ToolCallDelta) (f : ToolCallFragment) :
    (l.foldl applyFragmentUpdate f).id =
      (l.map (fun tc => tc.id)).foldl (fun s v => if v ≠ "" then v else s) f.id := by
  induction l generalizing f with
  | nil => rfl
  | cons tc rest ih =>
    by_cases h : tc.id = "" <;> simp [applyFragmentUpdate, h, ih]

theorem foldl_apply_name (l : List ToolCallDelta) (f : ToolCallFragment) :
    (l.foldl applyFragmentUpdate f).name =
      (l.map (fun tc => tc.name)).foldl (fun s v => if v ≠ "" then v else s) f.name := by
  induction l generalizing f with
  | nil => rfl
  | cons tc rest ih =>
    by_cases h : tc.name = "" <;> simp [applyFragmentUpdate, h, ih]

theorem fragment_ext {x y : ToolCallFragment} (h1 : x.id = y.id) (h2 : x.name = y.name)
    (h3 : x.arguments = y.arguments) : x = y := by
  cases x
  cases y
  simp_all

theorem reassemble_components (l : List ToolCallDelta) (hl : l ≠ []) :
    l.foldl optStep none =
      some { id := lastTruthy (l.map (fun tc => tc.id)),
             name := lastTruthy (l.map (fun tc => tc.name)),
             arguments := concatAll (l.map (fun tc => tc.arguments)) } := by
  cases l with
  | nil => exact absurd rfl hl
  | cons tc rest =>
    simp only [List.foldl_cons]
    rw [show optStep none tc = some (applyFragmentUpdate ⟨tc.id, tc.name, ""⟩ tc) from rfl,
      optStep_foldl_some]
    congr 1
    apply fragment_ext
    · rw [foldl_apply_id]
      have hinit : (applyFragmentUpdate ⟨tc.id, tc.name, ""⟩ tc).id = tc.id := by
        by_cases h : tc.id = "" <;> simp [applyFragmentUpdate, h]
      rw [hinit]
      simp only [lastTruthy, List.map_cons, List.foldl_cons]
      congr 1
      by_cases h : tc.id = "" <;> simp [h]
    · rw [foldl_apply_name]
      have hinit : (applyFragmentUpdate ⟨tc.id, tc.name, ""⟩ tc).name = tc.name := by
        by_cases h : tc.name = "" <;> simp [applyFragmentUpdate, h]
      rw [hinit]
      simp only [lastTruthy, List.map_cons, List.foldl_cons]
      congr 1
      by_cases h : tc.name = "" <;> simp [h]
    · rw [foldl_apply_arguments]
      have hinit : (applyFragmentUpdate ⟨tc.id, tc.name, ""⟩ tc).arguments = tc.arguments := by
        by_cases h : tc.arguments = "" <;>
          simp [applyFragmentUpdate, h, String.empty_append]
      rw [hinit]
      simp [concatAll]

/-! ### Stream-level view of the accumulator -/

def initFrame : FrameState :=
  { fullContent := "", toolCallAccumulator := [], finishReason := "" }

/-- The tool-call deltas a single parsed event delivers to the accumulator. -/
def eventToolCallDeltas (ev : StreamEvent) : List ToolCallDelta :=
  match ev.choices.head? with
  | none => []
  | some choice =>
    match choice.delta with
    | none => []
    | some delta => delta.tool_calls.getD []

/-- All tool-call deltas of a stream of parsed events, in delivery order. -/
def streamToolCallDeltas (evs : List StreamEvent) : List ToolCallDelta :=
  (evs.map eventToolCallDeltas).flatten

/-- Decoding a stream of already-parsed events. -/
def decodeEvents (evs : List StreamEvent) : FrameState :=
  evs.foldl processEvent initFrame

theorem processEvent_accumulator (st : FrameState) (ev : StreamEvent) :
    (processEvent st ev).toolCallAccumulator =
      (eventToolCallDeltas ev).foldl accumulateToolCall st.toolCallAccumulator := by
  unfold processEvent eventToolCallDeltas
  cases ev.choices.head? with
  | none => rfl
  | some choice =>
    obtain ⟨fr, del⟩ := choice
    cases del with
    | none => by_cases h1 : fr ≠ "" <;> simp [h1]
    | some delta =>
      obtain ⟨cnt, otcs⟩ := delta
      cases otcs with
      | none =>
        by_cases h1 : fr ≠ "" <;> by_cases h2 : cnt ≠ "" <;> simp [h1, h2]
      | some tcs =>
        by_cases h1 : fr ≠ "" <;> by_cases h2 : cnt ≠ "" <;> simp [h1, h2]

theorem foldl_processEvent_accumulator (evs : List StreamEvent) (st : FrameState) :
    (evs.foldl processEvent st).toolCallAccumulator =
      (streamToolCallDeltas evs).foldl accumulateToolCall st.toolCallAccumulator := by
  induction evs generalizing st with
  | nil => simp [streamToolCallDeltas]
  | cons ev rest ih =>
    simp only [List.foldl_cons, streamToolCallDeltas, List.map_cons, List.flatten_cons,
      List.foldl_append]
    rw [ih, processEvent_accumulator]
    rfl

theorem mem_firstSeenKeys (tcs : List ToolCallDelta) (seen : List Nat) (i : Nat) :
    i ∈ firstSeenKeys seen tcs ↔ i ∈ seen ∨ ∃ tc ∈ tcs, tc.index = i := by
  induction tcs generalizing seen with
  | nil => simp [firstSeenKeys]
  | cons tc rest ih =>
    have h : firstSeenKeys seen (tc :: rest) = firstSeenKeys (insertNew seen tc.index) rest :=
      rfl
    rw [h, ih]
    have hins : i ∈ insertNew seen tc.index ↔ i ∈ seen ∨ tc.index = i := by
      unfold insertNew
      by_cases hm : tc.index ∈ seen
      · rw [if_pos hm]
        constructor
        · exact Or.inl
        · rintro (hs | hti)
          · exact hs
          · rw [← hti]
            exact hm
      · rw [if_neg hm, List.mem_append, List.mem_singleton]
        constructor
        · rintro (hs | hti)
          · exact Or.inl hs
          · exact Or.inr hti.symm
        · rintro (hs | hti)
          · exact Or.inl hs
          · exact Or.inr hti.symm
    rw [hins]
    constructor
    · rintro ((hs | hti) | ⟨tc2, htc2, hidx⟩)
      · exact Or.inl hs
      · exact Or.inr ⟨tc, List.mem_cons_self tc rest, hti⟩
      · exact Or.inr ⟨tc2, List.mem_cons_of_mem tc htc2, hidx⟩
    · rintro (hs | ⟨tc2, htc2, hidx⟩)
      · exact Or.inl (Or.inl hs)
      · rcases List.mem_cons.mp htc2 with h2 | h2
        · subst h2
          exact Or.inl (Or.inr hidx)
        · exact Or.inr ⟨tc2, h2, hidx⟩

theorem deltasAt_ne_of_mem_firstSeen {tcs : List ToolCallDelta} {i : Nat}
    (h : i ∈ firstSeenIndices tcs) : deltasAt tcs i ≠ [] := by
  have hmem := (mem_firstSeenKeys tcs [] i).mp h
  simp only [List.not_mem_nil, false_or] at hmem
  obtain ⟨tc, htc, hidx⟩ := hmem
  intro hnil
  have hin : tc ∈ deltasAt tcs i := by
    apply List.mem_filter.mpr
    exact ⟨htc, by simp [hidx]⟩
  rw [hnil] at hin
  exact List.not_mem_nil tc hin

/-- C3: When two or more tool-call deltas of a stream arrive at the same
index, the fragment reassembled at that index holds exactly the
concatenation of the delivered argument pieces in delivery order, and its
id and name hold the last non-empty value delivered (a delta overwrites
them only when it supplies a non-empty value). -/
theorem same_index_fragment_reassembly (evs : List StreamEvent) (i : Nat)
    (h : 2 ≤ (deltasAt (streamToolCallDeltas evs) i).length) :
    lookupFrag i (decodeEvents evs).toolCallAccumulator =
      some { id := lastTruthy ((deltasAt (streamToolCallDeltas evs) i).map (fun tc => tc.id))
             name := lastTruthy ((deltasAt (streamToolCallDeltas evs) i).map (fun tc => tc.name))
             arguments :=
               concatAll ((deltasAt (streamToolCallDeltas evs) i).map
                 (fun tc => tc.arguments)) } := by
  have hne : deltasAt (streamToolCallDeltas evs) i ≠ [] := by
    intro hnil
    rw [hnil] at h
    simp at h
  have hacc : (decodeEvents evs).toolCallAccumulator =
      (streamToolCallDeltas evs).foldl accumulateToolCall [] := by
    unfold decodeEvents
    rw [foldl_processEvent_accumulator]
    rfl
  rw [hacc, lookupFrag_foldl_accumulate,
    show lookupFrag i [] = none from rfl]
  exact reassemble_components _ hne

def wC3Evs : List StreamEvent :=
  [⟨[⟨"", some ⟨"", some [⟨0, "id1", "calc", "ab"⟩]⟩⟩]⟩,
   ⟨[⟨"", some ⟨"", some [⟨0, "", "", "cd"⟩]⟩⟩]⟩]

theorem same_index_fragment_reassembly_witness :
    2 ≤ (deltasAt (streamToolCallDeltas wC3Evs) 0).length ∧
      lookupFrag 0 (decodeEvents wC3Evs).toolCallAccumulator =
        some { id := "id1", name := "calc", arguments := "abcd" } :=
  ⟨by decide, (same_index_fragment_reassembly wC3Evs 0 (by decide)).trans (by decide)⟩

/-! ### Materialization order (C1) -/

/-- Modelled from the spec (for comparison with the source only): the
spec's finalization materializes fragments in ascending index order. -/
def insertSorted (i : Nat) : List Nat → List Nat
  | [] => [i]
  | j :: rest => if i ≤ j then i :: j :: rest else j :: insertSorted i rest

def sortKeys (l : List Nat) : List Nat := l.foldr insertSorted []

/-- Modelled from the spec (for comparison with the source only):
materialize the accumulator in ascending index order. -/
def finalizeToolCallsAscending (acc : List (Nat × ToolCallFragment)) :
    Option (List ToolCall) :=
  if acc.length > 0 then
    some ((sortKeys (acc.map Prod.fst)).map (fun i =>
      { id := ((lookupFrag i acc).getD ⟨"", "", ""⟩).id, type := "function"
        function := { name := ((lookupFrag i acc).getD ⟨"", "", ""⟩).name
                      arguments := ((lookupFrag i acc).getD ⟨"", "", ""⟩).arguments } }))
  else none

def outOfOrderDeltas : List ToolCallDelta :=
  [⟨1, "idB", "toolB", "argsB"⟩, ⟨0, "idA", "toolA", "argsA"⟩]

/-- C1 counterexample: when the index-1 delta arrives before the
index-0 delta, the source materializes the accumulator in insertion order
(index 1 first), not in ascending index order as the claim states. -/
theorem finalize_not_ascending_counterexample :
    finalizeToolCalls (outOfOrderDeltas.foldl accumulateToolCall []) =
      some [{ id := "idB", type := "function"
              function := { name := "toolB", arguments := "argsB" } },
            { id := "idA", type := "function"
              function := { name := "toolA", arguments := "argsA" } }] ∧
    finalizeToolCallsAscending (outOfOrderDeltas.foldl accumulateToolCall []) =
      some [{ id := "idA", type := "function"
              function := { name := "toolA", arguments := "argsA" } },
            { id := "idB", type := "function"
              function := { name := "toolB", arguments := "argsB" } }] := by
  decide

/-- C1 amended: At end-of-stream, accumulated fragments are
materialized into the returned ToolCall list in the order their indices
were first seen (JS `Map` insertion order) — not ascending index order —
each carrying the reassembled id, name and concatenated arguments of its
index. -/
theorem finalize_first_seen_order (evs : List StreamEvent) :
    finalizeToolCalls (decodeEvents evs).toolCallAccumulator =
      (if firstSeenIndices (streamToolCallDeltas evs) = [] then none
       else some ((firstSeenIndices (streamToolCallDeltas evs)).map (fun i =>
         { id := lastTruthy ((deltasAt (streamToolCallDeltas evs) i).map (fun tc => tc.id))
           type := "function"
           function := {
             name :=
               lastTruthy ((deltasAt (streamToolCallDeltas evs) i).map (fun tc => tc.name))
             arguments :=
               concatAll ((deltasAt (streamToolCallDeltas evs) i).map
                 (fun tc => tc.arguments)) } }))) := by
  have hacc : (decodeEvents evs).toolCallAccumulator =
      (streamToolCallDeltas evs).foldl accumulateToolCall [] := by
    unfold decodeEvents
    rw [foldl_processEvent_accumulator]
    rfl
  rw [hacc, foldl_accumulate_eq]
  rcases hk : firstSeenIndices (streamToolCallDeltas evs) with _ | ⟨k, rest⟩
  · simp [finalizeToolCalls]
  · rw [if_neg (by simp)]
    unfold finalizeToolCalls
    rw [if_pos (by simp)]
    rw [List.map_map]
    apply congrArg some
    apply List.map_congr_left
    intro i hi
    have hmem : i ∈ firstSeenIndices (streamToolCallDeltas evs) := by
      rw [hk]
      exact hi
    have hne := deltasAt_ne_of_mem_firstSeen hmem
    have hre : reassembleAt (streamToolCallDeltas evs) i =
        { id := lastTruthy ((deltasAt (streamToolCallDeltas evs) i).map (fun tc => tc.id))
          name := lastTruthy ((deltasAt (streamToolCallDeltas evs) i).map (fun tc => tc.name))
          arguments :=
            concatAll ((deltasAt (streamToolCallDeltas evs) i).map (fun tc => tc.arguments)) } := by
      unfold reassembleAt
      rw [reassemble_components _ hne]
      rfl
    simp [hre]

/-! ### Decode tolerance (C6) -/

/-- A complete line is malformed when it is empty, lacks the `data:`
marker, carries the terminal sentinel, or carries a payload the parser
rejects. -/
def malformedFrame (p : String → Option StreamEvent) (line : List Char) : Prop :=
  trimChars line = [] ∨ isDataLine (trimChars line) = false ∨
    trimChars ((trimChars line).drop 5) = "[DONE]".data ∨
    p (String.mk (trimChars ((trimChars line).drop 5))) = none

instance malformedFrameDecidable (p : String → Option StreamEvent) (line : List Char) :
    Decidable (malformedFrame p line) := by
  unfold malformedFrame
  infer_instance

/-- C6: The decoder never fails on a malformed frame: an empty line, a
line without the `data:` marker, a payload the parser rejects, and the
`[DONE]` sentinel all leave the frame state unchanged; the remaining
frames decode exactly as if the malformed one were absent; and on the
sentinel the result does not depend on the parser at all (it is discarded
without attempting a parse). -/
theorem malformed_frame_skipped (p : String → Option StreamEvent) :
    (∀ st line, malformedFrame p line → processLine p st line = st) ∧
    (∀ st pre post bad, malformedFrame p bad →
      (pre ++ bad :: post).foldl (processLine p) st =
        (pre ++ post).foldl (processLine p) st) ∧
    (∀ q st line, trimChars ((trimChars line).drop 5) = "[DONE]".data →
      processLine p st line = processLine q st line) := by
  have hskip : ∀ st line, malformedFrame p line → processLine p st line = st := by
    intro st line h
    unfold processLine
    rcases h with h | h | h | h
    · simp [h]
    · simp [h]
    · by_cases hc : (trimChars line).isEmpty || !(isDataLine (trimChars line)) <;>
        simp [hc, h]
    · by_cases hc : (trimChars line).isEmpty || !(isDataLine (trimChars line))
      · simp [hc]
      · by_cases hd : trimChars ((trimChars line).drop 5) = "[DONE]".data <;>
          simp [hc, hd, h]
  refine ⟨hskip, ?_, ?_⟩
  · intro st pre post bad hbad
    rw [List.foldl_append, List.foldl_cons, hskip _ _ hbad, List.foldl_append]
  · intro q st line hsent
    unfold processLine
    by_cases hc : (trimChars line).isEmpty || !(isDataLine (trimChars line)) <;>
      simp [hc, hsent]

/-- A sample parse function for concrete witnesses: it accepts exactly the
payload `EV1`. -/
def sampleParse : String → Option StreamEvent := fun s =>
  if s = "EV1" then some ⟨[⟨"", some ⟨"hello", none⟩⟩]⟩ else none

theorem malformed_frame_skipped_witness :
    (malformedFrame sampleParse "data: oops".data ∧
      processLine sampleParse initFrame "data: oops".data = initFrame) ∧
    (["data: EV1".data] ++ "data: oops".data :: ["data: EV1".data]).foldl
        (processLine sampleParse) initFrame =
      (["data: EV1".data] ++ ["data: EV1".data]).foldl (processLine sampleParse) initFrame ∧
    processLine sampleParse initFrame "data: [DONE]".data =
      processLine (fun _ => none) initFrame "data: [DONE]".data := by
  refine ⟨⟨by decide, ?_⟩, ?_, ?_⟩
  · exact (malformed_frame_skipped sampleParse).1 initFrame _ (by decide)
  · exact (malformed_frame_skipped sampleParse).2.1 initFrame ["data: EV1".data]
      ["data: EV1".data] _ (by decide)
  · exact (malformed_frame_skipped sampleParse).2.2 (fun _ => none) initFrame
      "data: [DONE]".data (by decide)

/-! ### Tool registry (the ToolRegistry module) -/

/-- A JSON-like value: the shape of a parsed tool-argument object. -/
inductive Jval where
  | str (s : String)
  | num (n : Int)
  | bool (b : Bool)
  | null
  | arr (xs : List Jval)
  | obj (fields : List (String × Jval))

/-- A registered tool; `execute` either returns a result string or raises
(modelled as `Except` carrying the raised message). -/
structure AgentTool where
  name : String
  description : String
  parameters : Jval
  execute : Jval → Except String String

/-- Model of `Map.get` on the name-keyed tool map. -/
def lookupTool (name : String) : List (String × AgentTool) → Option AgentTool
  | [] => none
  | e :: t => if e.1 = name then some e.2 else lookupTool name t

def jsonEscapeChar (c : Char) : List Char :=
  if c = '"' then ['\\', '"']
  else if c = '\\' then ['\\', '\\']
  else if c = '\n' then ['\\', 'n']
  else if c = '\r' then ['\\', 'r']
  else if c = '\t' then ['\\', 't']
  else [c]

def jsonEscape (s : String) : String :=
  String.mk ((s.data.map jsonEscapeChar).flatten)

/-- Model of `JSON.stringify` of the error payload shape used by the registry. -/
def stringifyError (msg : String) : String :=
  "\x7b\"error\":\"" ++ jsonEscape msg ++ "\"\x7d"

/-- Model of `ToolRegistry.execute`: look up by name; on a miss return the
structured error payload; on a hit run the tool, converting a raised fault
to the same payload shape. -/
def registryExecute (reg : List (String × AgentTool)) (name : String) (args : Jval) :
    String :=
  match lookupTool name reg with
  | none => stringifyError ("Unknown tool: " ++ name)
  | some tool =>
    match tool.execute args with
    | .ok r => r
    | .error e => stringifyError e

/-- C7: `ToolRegistry.execute` never raises: it is a total function into
result strings; an unknown name yields the structured error payload rather
than a fault, and a tool that raises has its fault caught and converted to
the same payload shape, while a succeeding tool's result is passed
through. -/
theorem registry_execute_never_raises (reg : List (String × AgentTool)) (name : String)
    (args : Jval) :
    (lookupTool name reg = none →
      registryExecute reg name args = stringifyError ("Unknown tool: " ++ name)) ∧
    (∀ tool e, lookupTool name reg = some tool → tool.execute args = .error e →
      registryExecute reg name args = stringifyError e) ∧
    (∀ tool r, lookupTool name reg = some tool → tool.execute args = .ok r →
      registryExecute reg name args = r) := by
  refine ⟨?_, ?_, ?_⟩
  · intro h
    simp [registryExecute, h]
  · intro tool e h1 h2
    simp [registryExecute, h1, h2]
  · intro tool r h1 h2
    simp [registryExecute, h1, h2]

/-! ### Agent runner (the AgentRunner module) -/

/-- One remote round-trip as observed by `run`: the assembled response
returned by `llmClient.stream` and the text accumulated through the delta
callback (the loop's `fullText`). -/
structure OracleTurn where
  resp : LLMResponse
  streamedText : String

/-- The loop state: the message history `fullMessages`, the number of
remote round-trips performed, and a counter of cancellation-signal
polls. -/
structure RunState where
  messages : List LLMMessage
  calls : Nat
  polls : Nat
  deriving Repr, DecidableEq

/-- Outcome of `run`: either a string (done or iteration-exhausted) or raises
the cancellation-specific `DOMException('Aborted', 'AbortError')`. -/
inductive RunResult where
  | ok (text : String) (st : RunState)
  | abortError (st : RunState)
  deriving Repr, DecidableEq

def RunResult.state : RunResult → RunState
  | .ok _ st => st
  | .abortError st => st

inductive StepResult where
  | cont (st : RunState)
  | aborted (st : RunState)
  deriving Repr, DecidableEq

def StepResult.state : StepResult → RunState
  | .cont st => st
  | .aborted st => st

/-- JS `a || b` on strings: the empty string is falsy. -/
def jsOr (a b : String) : String := if a = "" then b else a

/-- The string `Agent reached maximum iterations (N). Partial response returned.` -/
def exhaustedMessage (maxIterations : Nat) : String :=
  "Agent reached maximum iterations (" ++ toString maxIterations ++
    "). Partial response returned."

/-- Model of `Array.prototype.join('\n')`. -/
def joinSep : List String → String
  | [] => ""
  | [s] => s
  | s :: rest => s ++ "\n" ++ joinSep rest

/-- Model of `fullMessages.filter(assistant).map(content).join('\n')`. -/
def joinAssistantText (msgs : List LLMMessage) : String :=
  joinSep ((msgs.filter (fun m => m.role == "assistant")).map (fun m => m.content))

/-- The `for (const toolCall of response.tool_calls)` loop: poll the
signal before each dispatch, parse the argument string (substituting the
empty object on failure), execute via the registry, append one tool-role
message carrying the result and the originating call's id. -/
def execToolCalls (jparse : String → Option Jval) (reg : List (String × AgentTool))
    (signal : Nat → Bool) : List ToolCall → RunState → StepResult
  | [], st => .cont st
  | tc :: rest, st =>
    if signal st.polls then .aborted { st with polls := st.polls + 1 }
    else
      let toolArgs := (jparse tc.function.arguments).getD (Jval.obj [])
      let result := registryExecute reg tc.function.name toolArgs
      execToolCalls jparse reg signal rest
        { messages := st.messages ++
            [{ role := "tool", content := result, tool_call_id := some tc.id,
               tool_calls := none }],
          calls := st.calls, polls := st.polls + 1 }

/-- The `while (iteration < maxIterations)` loop.  `fuel` is the number of
iterations left, `iter` indexes the oracle (`llmClient.stream`) calls. -/
def runLoop (oracle : Nat → OracleTurn) (jparse : String → Option Jval)
    (reg : List (String × AgentTool)) (signal : Nat → Bool) (maxIterations : Nat) :
    Nat → Nat → RunState → RunResult
  | 0, _, st =>
    .ok (jsOr (joinAssistantText st.messages) (exhaustedMessage maxIterations)) st
  | fuel + 1, iter, st =>
    if signal st.polls then .abortError { st with polls := st.polls + 1 }
    else
      let turn := oracle iter
      let st2 := { st with calls := st.calls + 1, polls := st.polls + 1 }
      match turn.resp.tool_calls with
      | some tcs =>
        if tcs.length > 0 then
          let st3 := { st2 with messages := st2.messages ++
            [{ role := "assistant", content := turn.resp.content.getD "",
               tool_call_id := none, tool_calls := some tcs }] }
          match execToolCalls jparse reg signal tcs st3 with
          | .aborted st4 => .abortError st4
          | .cont st4 => runLoop oracle jparse reg signal maxIterations fuel (iter + 1) st4
        else .ok (jsOr (turn.resp.content.getD "") turn.streamedText) st2
      | none => .ok (jsOr (turn.resp.content.getD "") turn.streamedText) st2

/-- Model of `AgentRunner.run`: prepend the system message, then loop. -/
def run (oracle : Nat → OracleTurn) (jparse : String → Option Jval)
    (reg : List (String × AgentTool)) (signal : Nat → Bool) (maxIterations : Nat)
    (systemPrompt : String) (messages : List LLMMessage) : RunResult :=
  runLoop oracle jparse reg signal maxIterations maxIterations 0
    { messages := { role := "system", content := systemPrompt, tool_call_id := none,
                    tool_calls := none } :: messages,
      calls := 0, polls := 0 }

/-- The tool-role message appended for one executed tool call. -/
def toolResultMessage (jparse : String → Option Jval) (reg : List (String × AgentTool))
    (tc : ToolCall) : LLMMessage :=
  { role := "tool",
    content := registryExecute reg tc.function.name
      ((jparse tc.function.arguments).getD (Jval.obj []))
    tool_call_id := some tc.id, tool_calls := none }

theorem execToolCalls_no_signal (jparse : String → Option Jval)
    (reg : List (String × AgentTool)) (signal : Nat → Bool)
    (hsig : ∀ n, signal n = false) (tcs : List ToolCall) (st : RunState) :
    execToolCalls jparse reg signal tcs st =
      .cont { messages := st.messages ++ tcs.map (toolResultMessage jparse reg),
              calls := st.calls, polls := st.polls + tcs.length } := by
  induction tcs generalizing st with
  | nil => simp [execToolCalls]
  | cons tc rest ih =>
    simp only [execToolCalls, hsig, Bool.false_eq_true, if_false]
    rw [ih]
    simp [toolResultMessage, List.append_assoc, Nat.add_assoc, Nat.add_comm,
      Nat.add_left_comm]

/-- C4: An iteration whose response carries a non-empty tool-call list
appends exactly one assistant message — the response text (possibly
empty) plus all tool-call entries — followed by exactly one tool-role
message per tool call, in request order, each carrying the stringified
tool result and the id of the originating call, and then loops. -/
theorem iteration_appends_assistant_then_tools (oracle : Nat → OracleTurn)
    (jparse : String → Option Jval) (reg : List (String × AgentTool))
    (signal : Nat → Bool) (maxIterations fuel iter : Nat) (st : RunState)
    (tcs : List ToolCall) (hsig : ∀ n, signal n = false)
    (htc : (oracle iter).resp.tool_calls = some tcs) (hne : tcs ≠ []) :
    runLoop oracle jparse reg signal maxIterations (fuel + 1) iter st =
      runLoop oracle jparse reg signal maxIterations fuel (iter + 1)
        { messages := (st.messages ++
            [{ role := "assistant", content := (oracle iter).resp.content.getD ""
               tool_call_id := none, tool_calls := some tcs }]) ++
            tcs.map (toolResultMessage jparse reg),
          calls := st.calls + 1, polls := (st.polls + 1) + tcs.length } := by
  have hlen : tcs.length > 0 := List.length_pos.mpr hne
  simp only [runLoop, hsig, Bool.false_eq_true, if_false, htc, hlen, if_true]
  rw [execToolCalls_no_signal jparse reg signal hsig]

theorem execToolCalls_state_calls (jparse : String → Option Jval)
    (reg : List (String × AgentTool)) (signal : Nat → Bool) (tcs : List ToolCall)
    (st : RunState) :
    (execToolCalls jparse reg signal tcs st).state.calls = st.calls := by
  induction tcs generalizing st with
  | nil => rfl
  | cons tc rest ih =>
    by_cases h : signal st.polls = true
    · simp [execToolCalls, h, StepResult.state]
    · simp only [execToolCalls, h, Bool.false_eq_true, if_false]
      exact ih _

theorem runLoop_calls_le (oracle : Nat → OracleTurn) (jparse : String → Option Jval)
    (reg : List (String × AgentTool)) (signal : Nat → Bool) (maxIterations : Nat)
    (fuel iter : Nat) (st : RunState) :
    (runLoop oracle jparse reg signal maxIterations fuel iter st).state.calls ≤
      st.calls + fuel := by
  induction fuel generalizing iter st with
  | zero => simp [runLoop, RunResult.state]
  | succ n ih =>
    by_cases h : signal st.polls = true
    · simp [runLoop, h, RunResult.state]
    · simp only [runLoop, h, Bool.false_eq_true, if_false]
      cases htc : (oracle iter).resp.tool_calls with
      | none =>
        exact (by omega : st.calls + 1 ≤ st.calls + (n + 1))
      | some tcs =>
        by_cases hlen : tcs.length > 0
        · simp only [hlen, if_true]
          cases hex : execToolCalls jparse reg signal tcs
              { messages := st.messages ++
                  [{ role := "assistant", content := ((oracle iter).resp.content.getD "")
                     tool_call_id := none, tool_calls := some tcs }],
                calls := st.calls + 1, polls := st.polls + 1 } with
          | aborted st4 =>
            have hc : st4.calls = st.calls + 1 := by
              have hcc := execToolCalls_state_calls jparse reg signal tcs
                { messages := st.messages ++
                    [{ role := "assistant", content := ((oracle iter).resp.content.getD "")
                       tool_call_id := none, tool_calls := some tcs }],
                  calls := st.calls + 1, polls := st.polls + 1 }
              rw [hex] at hcc
              exact hcc
            exact (by omega : st4.calls ≤ st.calls + (n + 1))
          | cont st4 =>
            have hc : st4.calls = st.calls + 1 := by
              have hcc := execToolCalls_state_calls jparse reg signal tcs
                { messages := st.messages ++
                    [{ role := "assistant", content := ((oracle iter).resp.content.getD "")
                       tool_call_id := none, tool_calls := some tcs }],
                  calls := st.calls + 1, polls := st.polls + 1 }
              rw [hex] at hcc
              exact hcc
            have hih := ih (iter + 1) st4
            exact le_trans hih (by omega)
        · simp only [hlen, if_false]
          exact (by omega : st.calls + 1 ≤ st.calls + (n + 1))

theorem runLoop_all_tools (oracle : Nat → OracleTurn) (jparse : String → Option Jval)
    (reg : List (String × AgentTool)) (signal : Nat → Bool) (maxIterations : Nat)
    (hall : ∀ k, (oracle k).resp.tool_calls.getD [] ≠ [])
    (hsig : ∀ n, signal n = false) (fuel : Nat) :
    ∀ iter st, ∃ stf,
      runLoop oracle jparse reg signal maxIterations fuel iter st =
        .ok (jsOr (joinAssistantText stf.messages) (exhaustedMessage maxIterations)) stf ∧
      stf.calls = st.calls + fuel := by
  induction fuel with
  | zero =>
    intro iter st
    exact ⟨st, by simp [runLoop], by simp⟩
  | succ n ih =>
    intro iter st
    obtain ⟨tcs, htc, hne⟩ : ∃ tcs, (oracle iter).resp.tool_calls = some tcs ∧ tcs ≠ [] := by
      have h := hall iter
      cases hx : (oracle iter).resp.tool_calls with
      | none =>
        rw [hx] at h
        simp at h
      | some l =>
        rw [hx] at h
        exact ⟨l, rfl, by simpa using h⟩
    rw [iteration_appends_assistant_then_tools oracle jparse reg signal maxIterations n iter
      st tcs hsig htc hne]
    obtain ⟨stf, heq, hc⟩ := ih (iter + 1)
      { messages := (st.messages ++
          [{ role := "assistant", content := (oracle iter).resp.content.getD ""
             tool_call_id := none, tool_calls := some tcs }]) ++
          tcs.map (toolResultMessage jparse reg),
        calls := st.calls + 1, polls := (st.polls + 1) + tcs.length }
    refine ⟨stf, heq, ?_⟩
    simp only at hc
    omega

/-- C5: The loop performs at most `maxIterations` remote round-trips,
and when every round-trip returns tool calls it raises no fault: it
returns the iteration-exhausted outcome, the newline-joined concatenation
of all assistant-authored text in the accumulated history, or the fixed
diagnostic string when that concatenation is empty. -/
theorem iteration_exhaustion (oracle : Nat → OracleTurn) (jparse : String → Option Jval)
    (reg : List (String × AgentTool)) (signal : Nat → Bool) (maxIterations : Nat)
    (systemPrompt : String) (messages : List LLMMessage)
    (hall : ∀ k, (oracle k).resp.tool_calls.getD [] ≠ [])
    (hsig : ∀ n, signal n = false) :
    (∀ orc jp rg sg sys msgs,
      (run orc jp rg sg maxIterations sys msgs).state.calls ≤ maxIterations) ∧
    ∃ stf, run oracle jparse reg signal maxIterations systemPrompt messages =
        .ok (jsOr (joinAssistantText stf.messages) (exhaustedMessage maxIterations)) stf ∧
      stf.calls = maxIterations := by
  constructor
  · intro orc jp rg sg sys msgs
    have h := runLoop_calls_le orc jp rg sg maxIterations maxIterations 0
      { messages := { role := "system", content := sys, tool_call_id := none,
                      tool_calls := none } :: msgs,
        calls := 0, polls := 0 }
    simpa [run] using h
  · obtain ⟨stf, heq, hc⟩ := runLoop_all_tools oracle jparse reg signal maxIterations hall
      hsig maxIterations 0
      { messages := { role := "system", content := systemPrompt, tool_call_id := none,
                      tool_calls := none } :: messages,
        calls := 0, polls := 0 }
    exact ⟨stf, heq, by simpa using hc⟩

/-- C8: A tool call whose argument string does not parse is dispatched
with the empty argument object substituted instead of aborting: the loop
appends the tool result computed from the empty object and continues, so
the malformed string never makes `run` fail. -/
theorem malformed_arguments_substituted (jparse : String → Option Jval)
    (reg : List (String × AgentTool)) (signal : Nat → Bool) (tc : ToolCall)
    (rest : List ToolCall) (st : RunState) (hsig : signal st.polls = false)
    (hparse : jparse tc.function.arguments = none) :
    execToolCalls jparse reg signal (tc :: rest) st =
      execToolCalls jparse reg signal rest
        { messages := st.messages ++
            [{ role := "tool",
               content := registryExecute reg tc.function.name (Jval.obj [])
               tool_call_id := some tc.id, tool_calls := none }],
          calls := st.calls, polls := st.polls + 1 } := by
  simp [execToolCalls, hsig, hparse]

/-- C9: The cancellation signal is polled at loop-iteration entry and
immediately before each individual tool dispatch; a signal set at a check
point makes the loop raise the abort outcome — a constructor distinct
from every normal return — with no message appended after the check
point; in particular a signal already set before any remote call leaves
the history at exactly the system message plus the original input. -/
theorem cancellation_checked_at_checkpoints (oracle : Nat → OracleTurn)
    (jparse : String → Option Jval) (reg : List (String × AgentTool))
    (signal : Nat → Bool) (maxIterations : Nat) :
    (∀ fuel iter st, signal st.polls = true →
      runLoop oracle jparse reg signal maxIterations (fuel + 1) iter st =
        .abortError { st with polls := st.polls + 1 }) ∧
    (∀ tc rest st, signal st.polls = true →
      execToolCalls jparse reg signal (tc :: rest) st =
        .aborted { st with polls := st.polls + 1 }) ∧
    (∀ t st1 st2, RunResult.abortError st1 ≠ RunResult.ok t st2) ∧
    (∀ systemPrompt messages, signal 0 = true → 1 ≤ maxIterations →
      run oracle jparse reg signal maxIterations systemPrompt messages =
        .abortError
          { messages := { role := "system", content := systemPrompt, tool_call_id := none,
                          tool_calls := none } :: messages,
            calls := 0, polls := 1 }) := by
  refine ⟨?_, ?_, ?_, ?_⟩
  · intro fuel iter st h
    simp [runLoop, h]
  · intro tc rest st h
    simp [execToolCalls, h]
  · intro t st1 st2 h
    exact RunResult.noConfusion h
  · intro sys msgs h hM
    obtain ⟨n, rfl⟩ : ∃ n, maxIterations = n + 1 := ⟨maxIterations - 1, by omega⟩
    unfold run
    simp [runLoop, h]

/-! ### Concrete fixtures for witnesses -/

def userMsg : LLMMessage :=
  { role := "user", content := "2+2?", tool_call_id := none, tool_calls := none }

def calcTool : AgentTool :=
  { name := "calc", description := "returns a fixed string", parameters := Jval.obj []
    execute := fun _ => .ok "4" }

def boomTool : AgentTool :=
  { name := "boom", description := "always raises", parameters := Jval.obj []
    execute := fun _ => .error "kaboom" }

def sampleRegistry : List (String × AgentTool) := [("calc", calcTool), ("boom", boomTool)]

def toolCallA : ToolCall :=
  { id := "call-1", type := "function", function := { name := "calc", arguments := "x" } }

def badArgsCall : ToolCall :=
  { id := "call-2", type := "function", function := { name := "calc", arguments := "not json" } }

/-- An oracle whose every turn requests the same single tool call. -/
def loopingOracle : Nat → OracleTurn := fun _ =>
  { resp := { content := none, tool_calls := some [toolCallA], finish_reason := "tool_calls" }
    streamedText := "" }

def noSignal : Nat → Bool := fun _ => false

def yesSignal : Nat → Bool := fun _ => true

def noParse : String → Option Jval := fun _ => none

theorem trailing_unterminated_line_ignored_witness :
    ('\n' ∉ "data: EV1".data) ∧
    (decodeChunks sampleParse (["data: EV1\n".data] ++ ["data: EV1".data])).frame =
      (decodeChunks sampleParse ["data: EV1\n".data]).frame ∧
    (decodeChunks sampleParse (["data: EV1\n".data] ++ ["data: EV1".data])).buffer =
      (decodeChunks sampleParse ["data: EV1\n".data]).buffer ++ "data: EV1".data ∧
    streamResult sampleParse (["data: EV1\n".data] ++ ["data: EV1".data]) =
      streamResult sampleParse ["data: EV1\n".data] :=
  ⟨by decide,
    trailing_unterminated_line_ignored sampleParse ["data: EV1\n".data] "data: EV1".data
      (by decide)⟩

theorem registry_execute_never_raises_witness :
    (lookupTool "nope" sampleRegistry = none ∧
      registryExecute sampleRegistry "nope" (Jval.obj []) =
        stringifyError ("Unknown tool: " ++ "nope")) ∧
    (lookupTool "boom" sampleRegistry = some boomTool ∧
      boomTool.execute (Jval.obj []) = .error "kaboom" ∧
      registryExecute sampleRegistry "boom" (Jval.obj []) = stringifyError "kaboom") ∧
    (lookupTool "calc" sampleRegistry = some calcTool ∧
      calcTool.execute (Jval.obj []) = .ok "4" ∧
      registryExecute sampleRegistry "calc" (Jval.obj []) = "4") :=
  ⟨⟨rfl, (registry_execute_never_raises sampleRegistry "nope" (Jval.obj [])).1 rfl⟩,
   ⟨rfl, rfl,
     (registry_execute_never_raises sampleRegistry "boom" (Jval.obj [])).2.1 boomTool
       "kaboom" rfl rfl⟩,
   ⟨rfl, rfl,
     (registry_execute_never_raises sampleRegistry "calc" (Jval.obj [])).2.2 calcTool
       "4" rfl rfl⟩⟩

theorem iteration_appends_assistant_then_tools_witness :
    (∀ n, noSignal n = false) ∧
    (loopingOracle 0).resp.tool_calls = some [toolCallA] ∧
    runLoop loopingOracle noParse sampleRegistry noSignal 1 (0 + 1) 0
        { messages := [userMsg], calls := 0, polls := 0 } =
      runLoop loopingOracle noParse sampleRegistry noSignal 1 0 (0 + 1)
        { messages := ([userMsg] ++
            [{ role := "assistant", content := (loopingOracle 0).resp.content.getD ""
               tool_call_id := none, tool_calls := some [toolCallA] }]) ++
            [toolCallA].map (toolResultMessage noParse sampleRegistry),
          calls := 0 + 1, polls := (0 + 1) + [toolCallA].length } :=
  ⟨fun _ => rfl, rfl,
    iteration_appends_assistant_then_tools loopingOracle noParse sampleRegistry noSignal 1 0 0
      { messages := [userMsg], calls := 0, polls := 0 } [toolCallA] (fun _ => rfl) rfl
      (List.cons_ne_nil _ _)⟩

theorem iteration_exhaustion_witness :
    (∀ k, (loopingOracle k).resp.tool_calls.getD [] ≠ []) ∧
    (∀ n, noSignal n = false) ∧
    ((∀ orc jp rg sg sys msgs,
        (run orc jp rg sg 2 sys msgs).state.calls ≤ 2) ∧
      ∃ stf, run loopingOracle noParse sampleRegistry noSignal 2 "sys" [userMsg] =
          .ok (jsOr (joinAssistantText stf.messages) (exhaustedMessage 2)) stf ∧
        stf.calls = 2) :=
  ⟨fun _ => by simp [loopingOracle], fun _ => rfl,
    iteration_exhaustion loopingOracle noParse sampleRegistry noSignal 2 "sys" [userMsg]
      (fun _ => by simp [loopingOracle]) (fun _ => rfl)⟩

theorem malformed_arguments_substituted_witness :
    noSignal 0 = false ∧ noParse "not json" = none ∧
    execToolCalls noParse sampleRegistry noSignal [badArgsCall]
        { messages := [userMsg], calls := 0, polls := 0 } =
      execToolCalls noParse sampleRegistry noSignal []
        { messages := [userMsg] ++
            [{ role := "tool",
               content := registryExecute sampleRegistry "calc" (Jval.obj [])
               tool_call_id := some "call-2", tool_calls := none }],
          calls := 0, polls := 0 + 1 } :=
  ⟨rfl, rfl,
    malformed_arguments_substituted noParse sampleRegistry noSignal badArgsCall []
      { messages := [userMsg], calls := 0, polls := 0 } rfl rfl⟩

theorem cancellation_checked_at_checkpoints_witness :
    (yesSignal 0 = true ∧
      runLoop loopingOracle noParse sampleRegistry yesSignal 3 (0 + 1) 0
          { messages := [userMsg], calls := 0, polls := 0 } =
        .abortError { messages := [userMsg], calls := 0, polls := 0 + 1 }) ∧
    (execToolCalls noParse sampleRegistry yesSignal [toolCallA]
        { messages := [userMsg], calls := 0, polls := 0 } =
      .aborted { messages := [userMsg], calls := 0, polls := 0 + 1 }) ∧
    (RunResult.abortError { messages := [userMsg], calls := 0, polls := 1 } ≠
      RunResult.ok "4" { messages := [userMsg], calls := 0, polls := 1 }) ∧
    ((1 : Nat) ≤ 3 ∧
      run loopingOracle noParse sampleRegistry yesSignal 3 "sys" [userMsg] =
        .abortError
          { messages := { role := "system", content := "sys", tool_call_id := none,
                          tool_calls := none } :: [userMsg],
            calls := 0, polls := 1 }) :=
  ⟨⟨rfl,
     (cancellation_checked_at_checkpoints loopingOracle noParse sampleRegistry yesSignal 3).1
       0 0 { messages := [userMsg], calls := 0, polls := 0 } rfl⟩,
   (cancellation_checked_at_checkpoints loopingOracle noParse sampleRegistry yesSignal 3).2.1
     toolCallA [] { messages := [userMsg], calls := 0, polls := 0 } rfl,
   (cancellation_checked_at_checkpoints loopingOracle noParse sampleRegistry yesSignal 3).2.2.1
     "4" _ _,
   ⟨by omega,
     (cancellation_checked_at_checkpoints loopingOracle noParse sampleRegistry yesSignal 3).2.2.2
       "sys" [userMsg] rfl (by omega)⟩⟩

end Palace
